import Mathlib

/-!
A shallow embedding of the concept-set expansion, name merge and domain
exclusion pipeline of `multilingual_import.py` (function `build_graph`),
together with the column-resolution step for the Excel spreadsheet.

Row types mirror the columns actually read from the delimited files.
Identifier columns are modelled as `Nat`, text columns as `String`.
-/

namespace VocabImport

/-- String constant for the hierarchical relationship label. -/
def isAStr : String := "Is a"

/-- String constant for the cross-mapping relationship label. -/
def mapsToStr : String := "Maps to"

/-- String constant for the Chinese language display name. -/
def chineseStr : String := "Chinese"

/-- String constant for the ICD10CM vocabulary identifier. -/
def icd10cmStr : String := "ICD10CM"

/-- String constant for the ICD10PCS vocabulary identifier. -/
def icd10pcsStr : String := "ICD10PCS"

/-- A row of the CONCEPT file (fields used by `build_graph`). -/
structure ConceptRow where
  concept_id : Nat
  concept_name : String
  domain_id : String
  vocabulary_id : String
  concept_class_id : String
  concept_code : String
  standard_concept : String
deriving DecidableEq

/-- A row of the CONCEPT_SYNONYM file. -/
structure SynonymRow where
  concept_id : Nat
  concept_synonym_name : String
  language_concept_id : Nat
deriving DecidableEq

/-- A row of the CONCEPT_RELATIONSHIP file. -/
structure RelRow where
  concept_id_1 : Nat
  concept_id_2 : Nat
  relationship_id : String
deriving DecidableEq

/-- An entry of `names_list` as built in step 8 of `build_graph`. -/
structure NameEntry where
  concept_id : Nat
  value : String
  language_concept_id : Nat
  language_name : String
deriving DecidableEq

/-- All inputs of the `build_graph` pipeline after the row sources have been
read: the language map, the three tabular files, the two spreadsheet-derived
code-to-Chinese-name maps, and the excluded-domain configuration list. -/
structure Input where
  langMap : List (Nat × String)
  synonyms : List SynonymRow
  concepts : List ConceptRow
  rels : List RelRow
  cmMap : List (String × String)
  pcsMap : List (String × String)
  excludedDomains : List String

/-- Python `target_language_ids = set(language_map.keys())`. -/
def targetLanguageIds (inp : Input) : Finset Nat :=
  (inp.langMap.map Prod.fst).toFinset

/-- Python `target_synonyms`: synonym rows whose language is a target language. -/
def targetSynonyms (inp : Input) : List SynonymRow :=
  inp.synonyms.filter (fun s => decide (s.language_concept_id ∈ targetLanguageIds inp))

/-- Python `concepts_with_translations`: ids of concepts with a target-language synonym. -/
def conceptsWithTranslations (inp : Input) : Finset Nat :=
  ((targetSynonyms inp).map (fun s => s.concept_id)).toFinset

/-- Python `concepts_to_import = concepts_with_translations.copy()` (the seed set). -/
def conceptsToImport (inp : Input) : Finset Nat :=
  conceptsWithTranslations inp

/-- Python `related_rels`: Maps-to or Is-a rows with at least one endpoint in the seed set. -/
def relatedRels (inp : Input) : List RelRow :=
  inp.rels.filter (fun r => decide ((r.relationship_id = mapsToStr ∨ r.relationship_id = isAStr)
    ∧ (r.concept_id_1 ∈ conceptsToImport inp ∨ r.concept_id_2 ∈ conceptsToImport inp)))

/-- Python `additional_concepts`: endpoints of `related_rels`, minus the seed set. -/
def additionalConcepts (inp : Input) : Finset Nat :=
  (((relatedRels inp).map (fun r => r.concept_id_1))
    ++ ((relatedRels inp).map (fun r => r.concept_id_2))).toFinset \ conceptsToImport inp

/-- Python `parents[concept_id]`: direct parents of a concept via Is-a rows
(`concept_id_1` is the child, `concept_id_2` the parent). -/
def parentsOf (rels : List RelRow) (c : Nat) : List Nat :=
  (rels.filter (fun r => decide (r.relationship_id = isAStr ∧ r.concept_id_1 = c))).map
    (fun r => r.concept_id_2)

/-- Python `children[concept_id]`: direct children of a concept via Is-a rows. -/
def childrenOf (rels : List RelRow) (c : Nat) : List Nat :=
  (rels.filter (fun r => decide (r.relationship_id = isAStr ∧ r.concept_id_2 = c))).map
    (fun r => r.concept_id_1)

/-- All ids appearing as an endpoint of an Is-a row. -/
def isaNodes (rels : List RelRow) : Finset Nat :=
  ((rels.filter (fun r => decide (r.relationship_id = isAStr))).map
      (fun r => r.concept_id_1)).toFinset ∪
  ((rels.filter (fun r => decide (r.relationship_id = isAStr))).map
      (fun r => r.concept_id_2)).toFinset

/-- Upper bound on the number of worklist steps the traversal can take from a
given visited set and worklist: every already-visited pop shortens the list and
every fresh pop spends the `1 + (adj n).length` budget of its node. -/
def fuelNeed (adj : Nat → List Nat) (univ : Finset Nat) (visited : Finset Nat)
    (stack : List Nat) : Nat :=
  stack.length + (univ \ visited).sum (fun n => 1 + (adj n).length)

/-- The visited-set traversal of `get_all_ancestors` / `get_all_descendants`,
written as the equivalent explicit-worklist loop: pop a node, skip it when
already visited, otherwise mark it visited and push its neighbours.  The fuel
argument makes the recursion structural; with enough fuel it is never exhausted. -/
def dfsAux (adj : Nat → List Nat) : Nat → List Nat → Finset Nat → Finset Nat
  | 0, _, visited => visited
  | _ + 1, [], visited => visited
  | fuel + 1, n :: stack, visited =>
    if n ∈ visited then dfsAux adj fuel stack visited
    else dfsAux adj fuel (adj n ++ stack) (insert n visited)

/-- Python `get_all_ancestors(concept_id)`: recursive upward traversal with a visited set. -/
def get_all_ancestors (rels : List RelRow) (c : Nat) : Finset Nat :=
  dfsAux (parentsOf rels)
    (fuelNeed (parentsOf rels) (insert c (isaNodes rels)) ∅ [c]) [c] ∅

/-- Python `get_all_descendants(concept_id)`: recursive downward traversal with a visited set. -/
def get_all_descendants (rels : List RelRow) (c : Nat) : Finset Nat :=
  dfsAux (childrenOf rels)
    (fuelNeed (childrenOf rels) (insert c (isaNodes rels)) ∅ [c]) [c] ∅

/-- Python `starting_concepts = concepts_to_import | additional_concepts`. -/
def startingConcepts (inp : Input) : Finset Nat :=
  conceptsToImport inp ∪ additionalConcepts inp

/-- Python `all_hierarchy_concepts`: union of complete ancestor and descendant chains
of every starting concept. -/
def allHierarchyConcepts (inp : Input) : Finset Nat :=
  (startingConcepts inp).biUnion
    (fun c => get_all_ancestors inp.rels c ∪ get_all_descendants inp.rels c)

/-- Python `hierarchy_only_concepts = all_hierarchy_concepts - starting_concepts`. -/
def hierarchyOnlyConcepts (inp : Input) : Finset Nat :=
  allHierarchyConcepts inp \ startingConcepts inp

/-- Python `all_concept_ids` before the domain exclusion filter. -/
def allConceptIds (inp : Input) : Finset Nat :=
  conceptsToImport inp ∪ additionalConcepts inp ∪ hierarchyOnlyConcepts inp

/-- Python `drop_duplicates(subset=[key])`: keep the first row for each key value. -/
def dedupByKey {α κ : Type} [DecidableEq κ] (key : α → κ) : Finset κ → List α → List α
  | _, [] => []
  | seen, x :: xs =>
    if key x ∈ seen then dedupByKey key seen xs
    else x :: dedupByKey key (insert (key x) seen) xs

/-- The seen-set accumulated after scanning a whole list during deduplication. -/
def seenAfter {α κ : Type} [DecidableEq κ] (key : α → κ) (seen : Finset κ)
    (l : List α) : Finset κ :=
  l.foldl (fun s x => insert (key x) s) seen

/-- Step 7: concept rows with an id in `all_concept_ids`, deduplicated by id
(still including excluded domains). -/
def importedConcepts (inp : Input) : List ConceptRow :=
  dedupByKey (fun c => c.concept_id) ∅
    (inp.concepts.filter (fun c => decide (c.concept_id ∈ allConceptIds inp)))

/-- Python `excluded_concepts`: imported rows whose domain is in the excluded list. -/
def excludedConcepts (inp : Input) : List ConceptRow :=
  (importedConcepts inp).filter (fun c => decide (c.domain_id ∈ inp.excludedDomains))

/-- Python `final_concepts`: imported rows whose domain is not excluded. -/
def finalConcepts (inp : Input) : List ConceptRow :=
  (importedConcepts inp).filter (fun c => decide (c.domain_id ∉ inp.excludedDomains))

/-- Python `excluded_concept_ids`. -/
def excludedConceptIds (inp : Input) : Finset Nat :=
  ((excludedConcepts inp).map (fun c => c.concept_id)).toFinset

/-- Python `all_concept_ids = all_concept_ids - excluded_concept_ids` (post exclusion). -/
def allConceptIdsPost (inp : Input) : Finset Nat :=
  allConceptIds inp \ excludedConceptIds inp

/-- Python `final_concept_ids`: ids of the final concept rows. -/
def finalConceptIds (inp : Input) : Finset Nat :=
  ((finalConcepts inp).map (fun c => c.concept_id)).toFinset

/-- Python `chinese_lang_id`: the first language id whose display name is Chinese.
The Python expression indexes `[0]` into the matching list and raises on an
empty match, which `none` models. -/
def chineseLangId (langMap : List (Nat × String)) : Option Nat :=
  ((langMap.filter (fun p => decide (p.2 = chineseStr))).map Prod.fst).head?

/-- Step 8, first loop: Chinese names from the Excel maps for final concepts in
the two code-based vocabularies. -/
def excelNames (inp : Input) (cid : Nat) : List NameEntry :=
  (finalConcepts inp).filterMap (fun c =>
    if c.vocabulary_id = icd10cmStr then
      (inp.cmMap.lookup c.concept_code).map
        (fun v => ⟨c.concept_id, v, cid, chineseStr⟩)
    else if c.vocabulary_id = icd10pcsStr then
      (inp.pcsMap.lookup c.concept_code).map
        (fun v => ⟨c.concept_id, v, cid, chineseStr⟩)
    else none)

/-- Python `final_concepts[final_concepts['concept_id'] == concept_id]['vocabulary_id'].iloc[0]`
guarded by the emptiness check: the vocabulary of the first final row with the
given id, `none` when there is no such row. -/
def vocabOf (fcs : List ConceptRow) (cid : Nat) : Option String :=
  ((fcs.filter (fun c => decide (c.concept_id = cid))).head?).map
    (fun c => c.vocabulary_id)

/-- Step 8, second loop: names from the target-language synonym rows.  A row is
skipped when its concept is not in the post-exclusion id set, and a Chinese row
is skipped when the concept's vocabulary is one of the two Excel-covered ones. -/
def synonymNames (inp : Input) : List NameEntry :=
  (targetSynonyms inp).filterMap (fun s =>
    if s.concept_id ∈ allConceptIdsPost inp then
      match inp.langMap.lookup s.language_concept_id with
      | some langName =>
        if langName = chineseStr
            ∧ (vocabOf (finalConcepts inp) s.concept_id = some icd10cmStr
               ∨ vocabOf (finalConcepts inp) s.concept_id = some icd10pcsStr) then
          none
        else
          some ⟨s.concept_id, s.concept_synonym_name, s.language_concept_id, langName⟩
      | none => none
    else none)

/-- Python `names_list`: Excel-derived entries followed by synonym-derived entries. -/
def namesList (inp : Input) (cid : Nat) : List NameEntry :=
  excelNames inp cid ++ synonymNames inp

/-- The deduplication key of `drop_duplicates(subset=['concept_id',
'language_concept_id', 'value'])`. -/
def nameKey (e : NameEntry) : Nat × Nat × String :=
  (e.concept_id, e.language_concept_id, e.value)

/-- Python `names_df` after deduplication: the final name list. -/
def finalNames (inp : Input) (cid : Nat) : List NameEntry :=
  dedupByKey nameKey ∅ (namesList inp cid)

/-- Step 9: IS_A edges with both endpoints among the final concept ids. -/
def isaEdges (inp : Input) : List (Nat × Nat) :=
  (inp.rels.filter (fun r => decide (r.relationship_id = isAStr
      ∧ r.concept_id_1 ∈ finalConceptIds inp
      ∧ r.concept_id_2 ∈ finalConceptIds inp))).map
    (fun r => (r.concept_id_1, r.concept_id_2))

/-- Step 9: MAPS_TO edges with both endpoints among the final concept ids and
distinct endpoints. -/
def mapsToEdges (inp : Input) : List (Nat × Nat) :=
  (inp.rels.filter (fun r => decide (r.relationship_id = mapsToStr
      ∧ r.concept_id_1 ∈ finalConceptIds inp
      ∧ r.concept_id_2 ∈ finalConceptIds inp
      ∧ r.concept_id_1 ≠ r.concept_id_2))).map
    (fun r => (r.concept_id_1, r.concept_id_2))

/-- String constant for the vocabulary marker substring scanned for in headers. -/
def icdMark : String := "ICD"

/-- String constant for the Chinese-language marker substring scanned for in headers. -/
def chineseMark : String := "中文"

/-- String constant for the ICD-10-CM sheet marker. -/
def cmMark : String := "CM"

/-- A concrete header list with no matching column. -/
def badCols : List String := ["foo"]

/-- The concrete spreadsheet Chinese name used by the precedence witness. -/
def xName : String := "X"

/-- Whether the first character list starts the second one. -/
def listStarts (p h : List Char) : Bool :=
  match p, h with
  | [], _ => true
  | _ :: _, [] => false
  | a :: p, b :: h => a == b && listStarts p h

/-- Whether the first character list occurs contiguously inside the second. -/
def listInside (p h : List Char) : Bool :=
  match h with
  | [] => p.isEmpty
  | _ :: t => listStarts p h || listInside p t

/-- Substring test used by the flexible Excel column resolution (Python `in`). -/
def strContains (pat hay : String) : Bool :=
  listInside pat.toList hay.toList

/-- Python list comprehension `[c for c in columns if 'ICD' in str(c) and mark in str(c)][0]`: the first
matching column; indexing an empty match list raises, which `none` models. -/
def codeColumn (cols : List String) (mark : String) : Option String :=
  (cols.filter (fun c => strContains icdMark c && strContains mark c)).head?

/-- Python list comprehension `[c for c in columns if '中文' in str(c) and mark in str(c).upper()][0]`. -/
def chineseColumn (cols : List String) (mark : String) : Option String :=
  (cols.filter (fun c => strContains chineseMark c && strContains mark c.toUpper)).head?

/-- The column-resolution step for one sheet: both columns must resolve,
otherwise the step fails (the Python `[0]` raises IndexError and the run dies). -/
def resolveColumns (cols : List String) (mark : String) : Except String (String × String) :=
  match codeColumn cols mark, chineseColumn cols mark with
  | some a, some b => Except.ok (a, b)
  | _, _ => Except.error "column resolution failed"

/-- Reflexive-transitive reachability along an adjacency function: the
mathematical transitive closure the traversals are meant to compute. -/
inductive Reaches (adj : Nat → List Nat) : Nat → Nat → Prop
  | refl (n : Nat) : Reaches adj n n
  | step {n m k : Nat} : m ∈ adj n → Reaches adj m k → Reaches adj n k

/-- Concrete input: concept 1 is the seed, 2 is its parent (one hop), 3 is a
grandchild reached only by the descendant traversal, and 4 is a second parent
of 3 that no traversal ever reaches. -/
def inpA : Input :=
  { langMap := [(100, chineseStr)]
  , synonyms := [⟨1, "x", 100⟩]
  , concepts := [⟨1, "a", "Condition", "SNOMED", "cls", "c1", ""⟩,
                 ⟨2, "b", "Condition", "SNOMED", "cls", "c2", ""⟩,
                 ⟨3, "c", "Condition", "SNOMED", "cls", "c3", ""⟩,
                 ⟨4, "d", "Condition", "SNOMED", "cls", "c4", ""⟩]
  , rels := [⟨2, 1, isAStr⟩, ⟨3, 2, isAStr⟩, ⟨3, 4, isAStr⟩]
  , cmMap := []
  , pcsMap := []
  , excludedDomains := ["Geography"] }

/-- Concrete hierarchical edge set with the cycle 1 → 2 → 3 → 1 (in the is-a
direction) and a further non-cyclic ancestor 4 of 2. -/
def cycleRels : List RelRow :=
  [⟨1, 2, isAStr⟩, ⟨2, 3, isAStr⟩, ⟨3, 1, isAStr⟩, ⟨2, 4, isAStr⟩]

/-- Concrete ICD10CM concept row whose code has a spreadsheet Chinese name. -/
def rowB : ConceptRow := ⟨10, "ten", "Condition", icd10cmStr, "cls", "A01", ""⟩

/-- Concrete input: ICD10CM concept 10 with both a spreadsheet Chinese name and
a synonym-table Chinese name, plus a German synonym. -/
def inpB : Input :=
  { langMap := [(100, chineseStr), (200, "German")]
  , synonyms := [⟨10, "Y", 100⟩, ⟨10, "G", 200⟩]
  , concepts := [rowB]
  , rels := []
  , cmMap := [("A01", "X")]
  , pcsMap := []
  , excludedDomains := ["Geography"] }

/-- Concrete ICD10CM concept row whose code is absent from the spreadsheet. -/
def rowC : ConceptRow := ⟨11, "el", "Condition", icd10cmStr, "cls", "Z99", ""⟩

/-- Concrete input: ICD10CM concept 11 with a synonym-table Chinese name whose
code is absent from the spreadsheet map. -/
def inpC : Input :=
  { langMap := [(100, chineseStr)]
  , synonyms := [⟨11, "Y", 100⟩]
  , concepts := [rowC]
  , rels := []
  , cmMap := [("A01", "X")]
  , pcsMap := []
  , excludedDomains := ["Geography"] }

/-- Concrete input: concept 3 has an excluded Geography domain and a
target-language synonym; concept 1 is a regular concept. -/
def inpD : Input :=
  { langMap := [(100, chineseStr)]
  , synonyms := [⟨1, "x", 100⟩, ⟨3, "y", 100⟩]
  , concepts := [⟨1, "a", "Condition", "SNOMED", "cls", "c1", ""⟩,
                 ⟨3, "g", "Geography", "SNOMED", "cls", "c3", ""⟩]
  , rels := [⟨3, 1, isAStr⟩]
  , cmMap := []
  , pcsMap := []
  , excludedDomains := ["Geography"] }

/-- Concrete input: a proper maps-to edge between two imported concepts next to
a self-referencing maps-to edge. -/
def inpE : Input :=
  { langMap := [(100, chineseStr)]
  , synonyms := [⟨1, "x", 100⟩, ⟨2, "y", 100⟩]
  , concepts := [⟨1, "a", "Condition", "SNOMED", "cls", "c1", ""⟩,
                 ⟨2, "b", "Condition", "SNOMED", "cls", "c2", ""⟩]
  , rels := [⟨1, 2, mapsToStr⟩, ⟨1, 1, mapsToStr⟩]
  , cmMap := []
  , pcsMap := []
  , excludedDomains := ["Geography"] }

/-- Concrete input: a synonym row for concept 1, which has no row at all in the
concept file. -/
def inpF : Input :=
  { langMap := [(100, chineseStr)]
  , synonyms := [⟨1, "n", 100⟩]
  , concepts := [⟨2, "b", "Condition", "SNOMED", "cls", "c2", ""⟩]
  , rels := []
  , cmMap := []
  , pcsMap := []
  , excludedDomains := ["Geography"] }

end VocabImport

namespace VocabImport

/-- Transitivity of reachability. -/
theorem reaches_trans {adj : Nat → List Nat} {a b c : Nat}
    (h1 : Reaches adj a b) (h2 : Reaches adj b c) : Reaches adj a c := by
  induction h1 with
  | refl n => exact h2
  | step hm _ ih => exact Reaches.step hm (ih h2)

/-- A path starting inside the visited set either stays inside it or first
escapes through a worklist node, provided every visited node's neighbours are
visited or on the worklist. -/
theorem reaches_escape {adj : Nat → List Nat} {visited : Finset Nat} {stack : List Nat}
    (hinv : ∀ v ∈ visited, ∀ m ∈ adj v, m ∈ visited ∨ m ∈ stack)
    {v k : Nat} (hr : Reaches adj v k) (hv : v ∈ visited) :
    k ∈ visited ∨ ∃ n ∈ stack, Reaches adj n k := by
  induction hr with
  | refl n => exact Or.inl hv
  | step hm hr ih =>
    rcases hinv _ hv _ hm with h | h
    · exact ih h
    · exact Or.inr ⟨_, h, hr⟩

/-- Main characterisation of the worklist traversal: with sufficient fuel and a
consistent visited set, the result is the visited set together with everything
reachable from the worklist. -/
theorem dfsAux_spec (adj : Nat → List Nat) (univ : Finset Nat)
    (hadj : ∀ n m, m ∈ adj n → m ∈ univ) :
    ∀ (fuel : Nat) (stack : List Nat) (visited : Finset Nat),
      (∀ n ∈ stack, n ∈ univ) →
      fuelNeed adj univ visited stack ≤ fuel →
      (∀ v ∈ visited, ∀ m ∈ adj v, m ∈ visited ∨ m ∈ stack) →
      ∀ k, (k ∈ dfsAux adj fuel stack visited ↔
        k ∈ visited ∨ ∃ n ∈ stack, Reaches adj n k) := by
  intro fuel
  induction fuel with
  | zero =>
    intro stack visited hstack hfuel hinv k
    have hlen : stack.length = 0 := by
      simp only [fuelNeed] at hfuel
      omega
    have hnil : stack = [] := List.eq_nil_of_length_eq_zero hlen
    subst hnil
    simp [dfsAux]
  | succ fuel ih =>
    intro stack visited hstack hfuel hinv k
    cases stack with
    | nil => simp [dfsAux]
    | cons n stack =>
      by_cases h : n ∈ visited
      · have hrw : dfsAux adj (fuel + 1) (n :: stack) visited
            = dfsAux adj fuel stack visited := by
          simp [dfsAux, h]
        rw [hrw]
        have hstack' : ∀ x ∈ stack, x ∈ univ :=
          fun x hx => hstack x (List.mem_cons_of_mem _ hx)
        have hfuel' : fuelNeed adj univ visited stack ≤ fuel := by
          simp only [fuelNeed, List.length_cons] at hfuel ⊢
          omega
        have hinv' : ∀ v ∈ visited, ∀ m ∈ adj v, m ∈ visited ∨ m ∈ stack := by
          intro v hvv m hm
          rcases hinv v hvv m hm with h1 | h2
          · exact Or.inl h1
          · rcases List.mem_cons.mp h2 with rfl | h3
            · exact Or.inl h
            · exact Or.inr h3
        rw [ih stack visited hstack' hfuel' hinv' k]
        constructor
        · rintro (hk | ⟨x, hx, hr⟩)
          · exact Or.inl hk
          · exact Or.inr ⟨x, List.mem_cons_of_mem _ hx, hr⟩
        · rintro (hk | ⟨x, hx, hr⟩)
          · exact Or.inl hk
          · rcases List.mem_cons.mp hx with rfl | hx'
            · exact reaches_escape hinv' hr h
            · exact Or.inr ⟨x, hx', hr⟩
      · have hrw : dfsAux adj (fuel + 1) (n :: stack) visited
            = dfsAux adj fuel (adj n ++ stack) (insert n visited) := by
          simp [dfsAux, h]
        rw [hrw]
        have hnu : n ∈ univ := hstack n (List.mem_cons_self _ _)
        have hstack'' : ∀ x ∈ adj n ++ stack, x ∈ univ := by
          intro x hx
          rcases List.mem_append.mp hx with hx1 | hx2
          · exact hadj n x hx1
          · exact hstack x (List.mem_cons_of_mem _ hx2)
        have hmem : n ∈ univ \ visited := Finset.mem_sdiff.mpr ⟨hnu, h⟩
        have hsum : (1 + (adj n).length)
              + ((univ \ visited).erase n).sum (fun x => 1 + (adj x).length)
            = (univ \ visited).sum (fun x => 1 + (adj x).length) :=
          Finset.add_sum_erase (univ \ visited) (fun x => 1 + (adj x).length) hmem
        have hfuel'' : fuelNeed adj univ (insert n visited) (adj n ++ stack) ≤ fuel := by
          have e1 : univ \ insert n visited = (univ \ visited).erase n :=
            Finset.sdiff_insert univ visited n
          simp only [fuelNeed, List.length_cons] at hfuel
          simp only [fuelNeed, List.length_append, e1]
          omega
        have hinv'' : ∀ v ∈ insert n visited, ∀ m ∈ adj v,
            m ∈ insert n visited ∨ m ∈ adj n ++ stack := by
          intro v hvv m hm
          rcases Finset.mem_insert.mp hvv with rfl | hv'
          · exact Or.inr (List.mem_append.mpr (Or.inl hm))
          · rcases hinv v hv' m hm with h1 | h2
            · exact Or.inl (Finset.mem_insert_of_mem h1)
            · rcases List.mem_cons.mp h2 with rfl | h3
              · exact Or.inl (Finset.mem_insert_self _ _)
              · exact Or.inr (List.mem_append.mpr (Or.inr h3))
        rw [ih _ _ hstack'' hfuel'' hinv'' k]
        constructor
        · rintro (hk | ⟨x, hx, hr⟩)
          · rcases Finset.mem_insert.mp hk with rfl | hk'
            · exact Or.inr ⟨k, List.mem_cons_self _ _, Reaches.refl k⟩
            · exact Or.inl hk'
          · rcases List.mem_append.mp hx with hx1 | hx2
            · exact Or.inr ⟨n, List.mem_cons_self _ _, Reaches.step hx1 hr⟩
            · exact Or.inr ⟨x, List.mem_cons_of_mem _ hx2, hr⟩
        · rintro (hk | ⟨x, hx, hr⟩)
          · exact Or.inl (Finset.mem_insert_of_mem hk)
          · rcases List.mem_cons.mp hx with rfl | hx'
            · cases hr with
              | refl => exact Or.inl (Finset.mem_insert_self _ _)
              | step hm hr' => exact Or.inr ⟨_, List.mem_append.mpr (Or.inl hm), hr'⟩
            · exact Or.inr ⟨x, List.mem_append.mpr (Or.inr hx'), hr⟩

/-- Parents returned by the parent lookup are endpoints of Is-a rows. -/
theorem parentsOf_subset_isaNodes {rels : List RelRow} {n m : Nat}
    (hm : m ∈ parentsOf rels n) : m ∈ isaNodes rels := by
  simp only [parentsOf, List.mem_map, List.mem_filter, decide_eq_true_eq] at hm
  obtain ⟨r, ⟨hr, hcond⟩, rfl⟩ := hm
  simp only [isaNodes, Finset.mem_union, List.mem_toFinset, List.mem_map, List.mem_filter,
    decide_eq_true_eq]
  exact Or.inr ⟨r, ⟨hr, hcond.1⟩, rfl⟩

/-- Children returned by the child lookup are endpoints of Is-a rows. -/
theorem childrenOf_subset_isaNodes {rels : List RelRow} {n m : Nat}
    (hm : m ∈ childrenOf rels n) : m ∈ isaNodes rels := by
  simp only [childrenOf, List.mem_map, List.mem_filter, decide_eq_true_eq] at hm
  obtain ⟨r, ⟨hr, hcond⟩, rfl⟩ := hm
  simp only [isaNodes, Finset.mem_union, List.mem_toFinset, List.mem_map, List.mem_filter,
    decide_eq_true_eq]
  exact Or.inl ⟨r, ⟨hr, hcond.1⟩, rfl⟩

/-- The ancestor traversal returns exactly the concepts reachable upward. -/
theorem mem_get_all_ancestors (rels : List RelRow) (c k : Nat) :
    k ∈ get_all_ancestors rels c ↔ Reaches (parentsOf rels) c k := by
  have h := dfsAux_spec (parentsOf rels) (insert c (isaNodes rels))
    (fun n m hm => Finset.mem_insert_of_mem (parentsOf_subset_isaNodes hm))
    (fuelNeed (parentsOf rels) (insert c (isaNodes rels)) ∅ [c]) [c] ∅
    (by
      intro n hn
      have hn' : n = c := List.mem_singleton.mp hn
      subst hn'
      exact Finset.mem_insert_self _ _)
    le_rfl
    (by intro v hv; exact absurd hv (Finset.not_mem_empty v))
    k
  rw [get_all_ancestors, h]
  simp

/-- The descendant traversal returns exactly the concepts reachable downward. -/
theorem mem_get_all_descendants (rels : List RelRow) (c k : Nat) :
    k ∈ get_all_descendants rels c ↔ Reaches (childrenOf rels) c k := by
  have h := dfsAux_spec (childrenOf rels) (insert c (isaNodes rels))
    (fun n m hm => Finset.mem_insert_of_mem (childrenOf_subset_isaNodes hm))
    (fuelNeed (childrenOf rels) (insert c (isaNodes rels)) ∅ [c]) [c] ∅
    (by
      intro n hn
      have hn' : n = c := List.mem_singleton.mp hn
      subst hn'
      exact Finset.mem_insert_self _ _)
    le_rfl
    (by intro v hv; exact absurd hv (Finset.not_mem_empty v))
    k
  rw [get_all_descendants, h]
  simp

end VocabImport

namespace VocabImport

section Dedup

variable {α κ : Type} [DecidableEq κ] (key : α → κ)

/-- Deduplication only drops rows, it never invents them. -/
theorem mem_of_mem_dedupByKey {seen : Finset κ} {l : List α} {x : α}
    (hx : x ∈ dedupByKey key seen l) : x ∈ l := by
  induction l generalizing seen with
  | nil => simp [dedupByKey] at hx
  | cons a t ih =>
    simp only [dedupByKey] at hx
    by_cases h : key a ∈ seen
    · rw [if_pos h] at hx
      exact List.mem_cons_of_mem _ (ih hx)
    · rw [if_neg h] at hx
      rcases List.mem_cons.mp hx with rfl | hx'
      · exact List.mem_cons_self _ _
      · exact List.mem_cons_of_mem _ (ih hx')

/-- A kept row's key was not in the incoming seen set. -/
theorem key_not_mem_of_mem_dedupByKey {seen : Finset κ} {l : List α} {x : α}
    (hx : x ∈ dedupByKey key seen l) : key x ∉ seen := by
  induction l generalizing seen with
  | nil => simp [dedupByKey] at hx
  | cons a t ih =>
    simp only [dedupByKey] at hx
    by_cases h : key a ∈ seen
    · rw [if_pos h] at hx
      exact ih hx
    · rw [if_neg h] at hx
      rcases List.mem_cons.mp hx with rfl | hx'
      · exact h
      · intro hk
        exact ih hx' (Finset.mem_insert_of_mem hk)

/-- Every unseen key of the incoming list survives deduplication on some row. -/
theorem exists_mem_dedupByKey {seen : Finset κ} {l : List α} {x : α}
    (hx : x ∈ l) (hk : key x ∉ seen) :
    ∃ y ∈ dedupByKey key seen l, key y = key x := by
  induction l generalizing seen with
  | nil => cases hx
  | cons a t ih =>
    simp only [dedupByKey]
    by_cases h : key a ∈ seen
    · rw [if_pos h]
      rcases List.mem_cons.mp hx with rfl | hx'
      · exact absurd h hk
      · exact ih hx' hk
    · rw [if_neg h]
      by_cases hke : key x = key a
      · exact ⟨a, List.mem_cons_self _ _, hke.symm⟩
      · rcases List.mem_cons.mp hx with rfl | hx'
        · exact absurd rfl hke
        · obtain ⟨y, hy, hky⟩ := ih hx' (by
            intro hmem
            rcases Finset.mem_insert.mp hmem with h1 | h2
            · exact hke h1
            · exact hk h2)
          exact ⟨y, List.mem_cons_of_mem _ hy, hky⟩

/-- A row preceded by no row of the same key survives deduplication verbatim. -/
theorem mem_dedupByKey_of_first {seen : Finset κ} {x : α} :
    ∀ (l₁ l₂ : List α), (∀ f ∈ l₁, key f ≠ key x) → key x ∉ seen →
      x ∈ dedupByKey key seen (l₁ ++ x :: l₂) := by
  intro l₁
  induction l₁ generalizing seen with
  | nil =>
    intro l₂ _ hk
    simp only [List.nil_append, dedupByKey, if_neg hk]
    exact List.mem_cons_self _ _
  | cons a t ih =>
    intro l₂ hne hk
    simp only [List.cons_append, dedupByKey]
    by_cases h : key a ∈ seen
    · rw [if_pos h]
      exact ih l₂ (fun f hf => hne f (List.mem_cons_of_mem _ hf)) hk
    · rw [if_neg h]
      refine List.mem_cons_of_mem _ (ih l₂ (fun f hf => hne f (List.mem_cons_of_mem _ hf)) ?_)
      intro hmem
      rcases Finset.mem_insert.mp hmem with h1 | h2
      · exact hne a (List.mem_cons_self _ _) h1.symm
      · exact hk h2

/-- The keys of a deduplicated list are pairwise distinct. -/
theorem nodup_map_key_dedupByKey {seen : Finset κ} {l : List α} :
    ((dedupByKey key seen l).map key).Nodup := by
  induction l generalizing seen with
  | nil => simp [dedupByKey]
  | cons a t ih =>
    simp only [dedupByKey]
    by_cases h : key a ∈ seen
    · rw [if_pos h]
      exact ih
    · rw [if_neg h]
      simp only [List.map_cons, List.nodup_cons]
      refine ⟨?_, ih⟩
      intro hmem
      obtain ⟨y, hy, hky⟩ := List.mem_map.mp hmem
      exact key_not_mem_of_mem_dedupByKey key hy (hky ▸ Finset.mem_insert_self _ _)

/-- A list whose keys are already distinct and unseen is left unchanged. -/
theorem dedupByKey_eq_self {seen : Finset κ} {l : List α}
    (hseen : ∀ x ∈ l, key x ∉ seen) (hnd : (l.map key).Nodup) :
    dedupByKey key seen l = l := by
  induction l generalizing seen with
  | nil => simp [dedupByKey]
  | cons a t ih =>
    simp only [List.map_cons, List.nodup_cons] at hnd
    simp only [dedupByKey, if_neg (hseen a (List.mem_cons_self _ _))]
    congr 1
    refine ih ?_ hnd.2
    intro x hx hmem
    rcases Finset.mem_insert.mp hmem with h1 | h2
    · exact hnd.1 (h1 ▸ List.mem_map_of_mem key hx)
    · exact hseen x (List.mem_cons_of_mem _ hx) h2

/-- Accumulating the seen set is monotone. -/
theorem mem_seenAfter_of_mem {seen : Finset κ} {l : List α} {k : κ}
    (hk : k ∈ seen) : k ∈ seenAfter key seen l := by
  induction l generalizing seen with
  | nil => exact hk
  | cons a t ih => exact ih (Finset.mem_insert_of_mem hk)

/-- Every scanned key ends up in the accumulated seen set. -/
theorem key_mem_seenAfter {seen : Finset κ} {l : List α} {x : α}
    (hx : x ∈ l) : key x ∈ seenAfter key seen l := by
  induction l generalizing seen with
  | nil => cases hx
  | cons a t ih =>
    rcases List.mem_cons.mp hx with rfl | hx'
    · show key x ∈ seenAfter key (insert (key x) seen) t
      exact mem_seenAfter_of_mem key (Finset.mem_insert_self _ _)
    · show key x ∈ seenAfter key (insert (key a) seen) t
      exact ih hx'

/-- Deduplication distributes over append, threading the seen set. -/
theorem dedupByKey_append {seen : Finset κ} (l₁ l₂ : List α) :
    dedupByKey key seen (l₁ ++ l₂)
      = dedupByKey key seen l₁ ++ dedupByKey key (seenAfter key seen l₁) l₂ := by
  induction l₁ generalizing seen with
  | nil => simp [dedupByKey, seenAfter]
  | cons a t ih =>
    have hseen : seenAfter key seen (a :: t) = seenAfter key (insert (key a) seen) t := rfl
    by_cases h : key a ∈ seen
    · have h2 : seenAfter key (insert (key a) seen) t = seenAfter key seen t := by
        rw [Finset.insert_eq_self.mpr h]
      simp only [List.cons_append, dedupByKey, if_pos h, hseen, h2]
      exact ih
    · simp only [List.cons_append, dedupByKey, if_neg h, hseen]
      congr 1
      exact ih

/-- Deduplication of a fully seen list is empty. -/
theorem dedupByKey_eq_nil {seen : Finset κ} {l : List α}
    (h : ∀ x ∈ l, key x ∈ seen) : dedupByKey key seen l = [] := by
  induction l with
  | nil => rfl
  | cons a t ih =>
    simp only [dedupByKey, if_pos (h a (List.mem_cons_self _ _))]
    exact ih (fun x hx => h x (List.mem_cons_of_mem _ hx))

/-- Appending a duplicate copy of a list changes nothing after deduplication. -/
theorem dedupByKey_append_self (seen : Finset κ) (l : List α) :
    dedupByKey key seen (l ++ l) = dedupByKey key seen l := by
  rw [dedupByKey_append]
  have h : dedupByKey key (seenAfter key seen l) l = [] :=
    dedupByKey_eq_nil key (fun x hx => key_mem_seenAfter key hx)
  rw [h, List.append_nil]

/-- Deduplication is idempotent. -/
theorem dedupByKey_idem (l : List α) :
    dedupByKey key ∅ (dedupByKey key ∅ l) = dedupByKey key ∅ l :=
  dedupByKey_eq_self key (fun x _ => Finset.not_mem_empty (key x))
    (nodup_map_key_dedupByKey key)

omit [DecidableEq κ] in
/-- Two rows of a key-distinct list with the same key are the same row. -/
theorem eq_of_key_eq {l : List α} (hnd : (l.map key).Nodup) {x y : α}
    (hx : x ∈ l) (hy : y ∈ l) (hk : key x = key y) : x = y :=
  List.inj_on_of_nodup_map hnd hx hy hk

end Dedup

end VocabImport

namespace VocabImport

/-- The imported concept rows carry pairwise distinct ids. -/
theorem nodup_importedConcepts_ids (inp : Input) :
    ((importedConcepts inp).map (fun c => c.concept_id)).Nodup :=
  nodup_map_key_dedupByKey (fun c : ConceptRow => c.concept_id)

/-- The final concept rows carry pairwise distinct ids. -/
theorem nodup_finalConcepts_ids (inp : Input) :
    ((finalConcepts inp).map (fun c => c.concept_id)).Nodup := by
  have hsub : ((finalConcepts inp).map (fun c => c.concept_id)).Sublist
      ((importedConcepts inp).map (fun c => c.concept_id)) :=
    (List.filter_sublist _).map _
  exact (nodup_importedConcepts_ids inp).sublist hsub

/-- Membership in the deduplicated imported rows unpacks to the source file. -/
theorem mem_importedConcepts {inp : Input} {c : ConceptRow}
    (hc : c ∈ importedConcepts inp) :
    c ∈ inp.concepts ∧ c.concept_id ∈ allConceptIds inp := by
  have hc' : c ∈ dedupByKey (fun c : ConceptRow => c.concept_id) ∅
      (inp.concepts.filter (fun c => decide (c.concept_id ∈ allConceptIds inp))) := hc
  have h1 := mem_of_mem_dedupByKey (fun c : ConceptRow => c.concept_id) hc'
  have h2 := List.mem_filter.mp h1
  exact ⟨h2.1, of_decide_eq_true h2.2⟩

/-- Final row membership unpacks to an imported row with a kept domain. -/
theorem mem_finalConcepts {inp : Input} {c : ConceptRow}
    (hc : c ∈ finalConcepts inp) :
    c ∈ importedConcepts inp ∧ c.domain_id ∉ inp.excludedDomains := by
  have h := List.mem_filter.mp hc
  exact ⟨h.1, of_decide_eq_true h.2⟩

/-- Excluded row membership unpacks to an imported row with an excluded domain. -/
theorem mem_excludedConcepts {inp : Input} {c : ConceptRow}
    (hc : c ∈ excludedConcepts inp) :
    c ∈ importedConcepts inp ∧ c.domain_id ∈ inp.excludedDomains := by
  have h := List.mem_filter.mp hc
  exact ⟨h.1, of_decide_eq_true h.2⟩

/-- An id removed by the exclusion filter never names a final concept row. -/
theorem excluded_not_final {inp : Input} {d : Nat}
    (hd : d ∈ excludedConceptIds inp) : d ∉ finalConceptIds inp := by
  intro hfin
  obtain ⟨c1, hc1, hid1⟩ := List.mem_map.mp (List.mem_toFinset.mp hd)
  obtain ⟨c2, hc2, hid2⟩ := List.mem_map.mp (List.mem_toFinset.mp hfin)
  have him1 := (mem_excludedConcepts hc1).1
  have him2 := (mem_finalConcepts hc2).1
  have hceq : c1 = c2 := eq_of_key_eq (fun c => c.concept_id)
    (nodup_importedConcepts_ids inp) him1 him2
    (by show c1.concept_id = c2.concept_id; rw [hid1, hid2])
  subst hceq
  exact (mem_finalConcepts hc2).2 (mem_excludedConcepts hc1).2

/-- Excluded ids come from the pre-exclusion id set. -/
theorem excludedConceptIds_subset {inp : Input} {d : Nat}
    (hd : d ∈ excludedConceptIds inp) : d ∈ allConceptIds inp := by
  obtain ⟨c, hc, hid⟩ := List.mem_map.mp (List.mem_toFinset.mp hd)
  have him := (mem_excludedConcepts hc).1
  exact hid ▸ (mem_importedConcepts him).2

/-- Every final concept id lies in the post-exclusion id set. -/
theorem finalConceptIds_subset_post {inp : Input} {d : Nat}
    (hd : d ∈ finalConceptIds inp) : d ∈ allConceptIdsPost inp := by
  obtain ⟨c, hc, hid⟩ := List.mem_map.mp (List.mem_toFinset.mp hd)
  have him := (mem_finalConcepts hc).1
  refine Finset.mem_sdiff.mpr ⟨hid ▸ (mem_importedConcepts him).2, ?_⟩
  intro hexc
  exact excluded_not_final hexc hd

/-- The vocabulary lookup on the final rows returns the row's own vocabulary. -/
theorem vocabOf_finalConcepts {inp : Input} {c : ConceptRow}
    (hc : c ∈ finalConcepts inp) :
    vocabOf (finalConcepts inp) c.concept_id = some c.vocabulary_id := by
  have hmemf : c ∈ (finalConcepts inp).filter (fun x => decide (x.concept_id = c.concept_id)) :=
    List.mem_filter.mpr ⟨hc, by simp⟩
  rw [vocabOf]
  cases hfl : (finalConcepts inp).filter (fun x => decide (x.concept_id = c.concept_id)) with
  | nil => rw [hfl] at hmemf; cases hmemf
  | cons r t =>
    have hr : r ∈ (finalConcepts inp).filter (fun x => decide (x.concept_id = c.concept_id)) := by
      rw [hfl]; exact List.mem_cons_self _ _
    have hrf := List.mem_filter.mp hr
    have hrid : r.concept_id = c.concept_id := of_decide_eq_true hrf.2
    have hrc : r = c := eq_of_key_eq (fun x : ConceptRow => x.concept_id)
      (nodup_finalConcepts_ids inp) hrf.1 hc hrid
    simp [hrc]

end VocabImport

namespace VocabImport

/-- Key-distinctness survives `filterMap` when each produced element inherits
the key of its source row. -/
theorem nodup_map_filterMap {α β κ : Type} {keyA : α → κ} {keyB : β → κ}
    {g : α → Option β} (hg : ∀ a b, g a = some b → keyB b = keyA a) {l : List α}
    (h : (l.map keyA).Nodup) : ((l.filterMap g).map keyB).Nodup := by
  induction l with
  | nil => simp
  | cons a t ih =>
    simp only [List.map_cons, List.nodup_cons] at h
    cases hga : g a with
    | none =>
      rw [List.filterMap_cons_none hga]
      exact ih h.2
    | some b =>
      rw [List.filterMap_cons_some hga]
      simp only [List.map_cons, List.nodup_cons]
      refine ⟨?_, ih h.2⟩
      intro hmem
      obtain ⟨b', hb', hkb⟩ := List.mem_map.mp hmem
      obtain ⟨a', ha', hga'⟩ := List.mem_filterMap.mp hb'
      have h1 : keyB b' = keyA a' := hg a' b' hga'
      have h2 : keyB b = keyA a := hg a b hga
      have h3 : keyA a' = keyA a := by rw [← h1, hkb, h2]
      exact h.1 (h3 ▸ List.mem_map_of_mem keyA ha')

/-- The row-generation function of the Excel name loop. -/
theorem excelGen_id {inp : Input} {cid : Nat} {c : ConceptRow} {e : NameEntry}
    (hge : (if c.vocabulary_id = icd10cmStr then
        (inp.cmMap.lookup c.concept_code).map
          (fun v => (⟨c.concept_id, v, cid, chineseStr⟩ : NameEntry))
      else if c.vocabulary_id = icd10pcsStr then
        (inp.pcsMap.lookup c.concept_code).map
          (fun v => (⟨c.concept_id, v, cid, chineseStr⟩ : NameEntry))
      else none) = some e) :
    e.concept_id = c.concept_id ∧ e.language_concept_id = cid
      ∧ e.language_name = chineseStr
      ∧ ((c.vocabulary_id = icd10cmStr ∧ inp.cmMap.lookup c.concept_code = some e.value)
         ∨ (c.vocabulary_id = icd10pcsStr
            ∧ inp.pcsMap.lookup c.concept_code = some e.value)) := by
  by_cases h1 : c.vocabulary_id = icd10cmStr
  · rw [if_pos h1] at hge
    obtain ⟨v, hv, hmap⟩ := Option.map_eq_some'.mp hge
    subst hmap
    exact ⟨rfl, rfl, rfl, Or.inl ⟨h1, hv⟩⟩
  · rw [if_neg h1] at hge
    by_cases h2 : c.vocabulary_id = icd10pcsStr
    · rw [if_pos h2] at hge
      obtain ⟨v, hv, hmap⟩ := Option.map_eq_some'.mp hge
      subst hmap
      exact ⟨rfl, rfl, rfl, Or.inr ⟨h2, hv⟩⟩
    · rw [if_neg h2] at hge
      cases hge

/-- The Excel-derived name entries carry pairwise distinct concept ids. -/
theorem nodup_excelNames_ids (inp : Input) (cid : Nat) :
    ((excelNames inp cid).map (fun e => e.concept_id)).Nodup := by
  refine nodup_map_filterMap ?_ (nodup_finalConcepts_ids inp)
  intro c e hge
  exact (excelGen_id hge).1

/-- Unpacking an Excel-derived name entry. -/
theorem mem_excelNames_elim {inp : Input} {cid : Nat} {e : NameEntry}
    (he : e ∈ excelNames inp cid) :
    ∃ c ∈ finalConcepts inp, e.concept_id = c.concept_id
      ∧ e.language_concept_id = cid ∧ e.language_name = chineseStr
      ∧ ((c.vocabulary_id = icd10cmStr ∧ inp.cmMap.lookup c.concept_code = some e.value)
         ∨ (c.vocabulary_id = icd10pcsStr
            ∧ inp.pcsMap.lookup c.concept_code = some e.value)) := by
  obtain ⟨c, hc, hgc⟩ := List.mem_filterMap.mp he
  exact ⟨c, hc, excelGen_id hgc⟩

/-- Each final ICD10CM row with a spreadsheet hit produces its Excel entry. -/
theorem excelNames_intro_cm {inp : Input} {cid : Nat} {c : ConceptRow} {v : String}
    (hc : c ∈ finalConcepts inp) (hvoc : c.vocabulary_id = icd10cmStr)
    (hv : inp.cmMap.lookup c.concept_code = some v) :
    (⟨c.concept_id, v, cid, chineseStr⟩ : NameEntry) ∈ excelNames inp cid := by
  refine List.mem_filterMap.mpr ⟨c, hc, ?_⟩
  rw [if_pos hvoc, hv]
  rfl

/-- Each final ICD10PCS row with a spreadsheet hit produces its Excel entry. -/
theorem excelNames_intro_pcs {inp : Input} {cid : Nat} {c : ConceptRow} {v : String}
    (hc : c ∈ finalConcepts inp) (hvoc : c.vocabulary_id = icd10pcsStr)
    (hv : inp.pcsMap.lookup c.concept_code = some v) :
    (⟨c.concept_id, v, cid, chineseStr⟩ : NameEntry) ∈ excelNames inp cid := by
  refine List.mem_filterMap.mpr ⟨c, hc, ?_⟩
  have hne : ¬(c.vocabulary_id = icd10cmStr) := by
    rw [hvoc]
    decide
  rw [if_neg hne, if_pos hvoc, hv]
  rfl

/-- Unpacking a synonym-derived name entry. -/
theorem mem_synonymNames_elim {inp : Input} {e : NameEntry}
    (he : e ∈ synonymNames inp) :
    ∃ s ∈ targetSynonyms inp, s.concept_id ∈ allConceptIdsPost inp
      ∧ inp.langMap.lookup s.language_concept_id = some e.language_name
      ∧ e.concept_id = s.concept_id ∧ e.value = s.concept_synonym_name
      ∧ e.language_concept_id = s.language_concept_id
      ∧ ¬(e.language_name = chineseStr
          ∧ (vocabOf (finalConcepts inp) s.concept_id = some icd10cmStr
             ∨ vocabOf (finalConcepts inp) s.concept_id = some icd10pcsStr)) := by
  obtain ⟨s, hs, hgs⟩ := List.mem_filterMap.mp he
  refine ⟨s, hs, ?_⟩
  split_ifs at hgs with hpost
  · cases hlk : inp.langMap.lookup s.language_concept_id with
    | none =>
      rw [hlk] at hgs
      have hgs' : (none : Option NameEntry) = some e := hgs
      cases hgs'
    | some ln =>
      rw [hlk] at hgs
      have hgs' : (if ln = chineseStr
            ∧ (vocabOf (finalConcepts inp) s.concept_id = some icd10cmStr
               ∨ vocabOf (finalConcepts inp) s.concept_id = some icd10pcsStr) then none
          else some (⟨s.concept_id, s.concept_synonym_name, s.language_concept_id,
            ln⟩ : NameEntry)) = some e := hgs
      by_cases hskip : ln = chineseStr
          ∧ (vocabOf (finalConcepts inp) s.concept_id = some icd10cmStr
             ∨ vocabOf (finalConcepts inp) s.concept_id = some icd10pcsStr)
      · rw [if_pos hskip] at hgs'
        cases hgs'
      · rw [if_neg hskip] at hgs'
        have he' : e = ⟨s.concept_id, s.concept_synonym_name, s.language_concept_id, ln⟩ :=
          (Option.some_injective _ hgs').symm
        subst he'
        exact ⟨hpost, rfl, rfl, rfl, rfl, hskip⟩

/-- Each kept synonym row produces its name entry. -/
theorem synonymNames_intro {inp : Input} {s : SynonymRow} {ln : String}
    (hs : s ∈ targetSynonyms inp) (hpost : s.concept_id ∈ allConceptIdsPost inp)
    (hlk : inp.langMap.lookup s.language_concept_id = some ln)
    (hskip : ¬(ln = chineseStr
        ∧ (vocabOf (finalConcepts inp) s.concept_id = some icd10cmStr
           ∨ vocabOf (finalConcepts inp) s.concept_id = some icd10pcsStr))) :
    (⟨s.concept_id, s.concept_synonym_name, s.language_concept_id, ln⟩ : NameEntry)
      ∈ synonymNames inp := by
  refine List.mem_filterMap.mpr ⟨s, hs, ?_⟩
  rw [if_pos hpost, hlk]
  show (if ln = chineseStr
        ∧ (vocabOf (finalConcepts inp) s.concept_id = some icd10cmStr
           ∨ vocabOf (finalConcepts inp) s.concept_id = some icd10pcsStr) then none
      else some (⟨s.concept_id, s.concept_synonym_name, s.language_concept_id,
        ln⟩ : NameEntry))
    = some ⟨s.concept_id, s.concept_synonym_name, s.language_concept_id, ln⟩
  rw [if_neg hskip]

end VocabImport

namespace VocabImport

/-- The seed set is kept in the pre-exclusion id set. -/
theorem seed_subset_allConceptIds {inp : Input} {c : Nat}
    (hc : c ∈ conceptsToImport inp) : c ∈ allConceptIds inp := by
  simp only [allConceptIds, Finset.mem_union]
  exact Or.inl (Or.inl hc)

/-- Starting concepts are kept in the pre-exclusion id set. -/
theorem starting_subset_allConceptIds {inp : Input} {c : Nat}
    (hc : c ∈ startingConcepts inp) : c ∈ allConceptIds inp := by
  simp only [startingConcepts, Finset.mem_union] at hc
  simp only [allConceptIds, Finset.mem_union]
  rcases hc with h | h
  · exact Or.inl (Or.inl h)
  · exact Or.inl (Or.inr h)

/-- Everything swept up by the hierarchy traversals is kept. -/
theorem hierarchy_subset_allConceptIds {inp : Input} {c : Nat}
    (hc : c ∈ allHierarchyConcepts inp) : c ∈ allConceptIds inp := by
  by_cases hs : c ∈ startingConcepts inp
  · exact starting_subset_allConceptIds hs
  · simp only [allConceptIds, Finset.mem_union]
    exact Or.inr (Finset.mem_sdiff.mpr ⟨hc, hs⟩)

/-- Ancestors of starting concepts are kept in the pre-exclusion id set. -/
theorem ancestor_mem_allConceptIds {inp : Input} {c p : Nat}
    (hc : c ∈ startingConcepts inp) (hp : Reaches (parentsOf inp.rels) c p) :
    p ∈ allConceptIds inp := by
  refine hierarchy_subset_allConceptIds (Finset.mem_biUnion.mpr ⟨c, hc, ?_⟩)
  exact Finset.mem_union_left _ ((mem_get_all_ancestors inp.rels c p).mpr hp)

/-- Descendants of starting concepts are kept in the pre-exclusion id set. -/
theorem descendant_mem_allConceptIds {inp : Input} {c p : Nat}
    (hc : c ∈ startingConcepts inp) (hp : Reaches (childrenOf inp.rels) c p) :
    p ∈ allConceptIds inp := by
  refine hierarchy_subset_allConceptIds (Finset.mem_biUnion.mpr ⟨c, hc, ?_⟩)
  exact Finset.mem_union_right _ ((mem_get_all_descendants inp.rels c p).mpr hp)

/-- Both endpoints of a qualifying one-hop edge are kept. -/
theorem related_endpoints_mem {inp : Input} {r : RelRow} (hr : r ∈ inp.rels)
    (hkind : r.relationship_id = isAStr ∨ r.relationship_id = mapsToStr)
    (hseed : r.concept_id_1 ∈ conceptsToImport inp
      ∨ r.concept_id_2 ∈ conceptsToImport inp) :
    r.concept_id_1 ∈ startingConcepts inp ∧ r.concept_id_2 ∈ startingConcepts inp := by
  have hmem : r ∈ relatedRels inp := by
    refine List.mem_filter.mpr ⟨hr, ?_⟩
    refine decide_eq_true ⟨?_, hseed⟩
    rcases hkind with h | h
    · exact Or.inr h
    · exact Or.inl h
  constructor
  · by_cases h1 : r.concept_id_1 ∈ conceptsToImport inp
    · exact Finset.mem_union_left _ h1
    · refine Finset.mem_union_right _ (Finset.mem_sdiff.mpr ⟨?_, h1⟩)
      refine List.mem_toFinset.mpr (List.mem_append.mpr (Or.inl ?_))
      exact List.mem_map_of_mem _ hmem
  · by_cases h2 : r.concept_id_2 ∈ conceptsToImport inp
    · exact Finset.mem_union_left _ h2
    · refine Finset.mem_union_right _ (Finset.mem_sdiff.mpr ⟨?_, h2⟩)
      refine List.mem_toFinset.mpr (List.mem_append.mpr (Or.inr ?_))
      exact List.mem_map_of_mem _ hmem

/-- An Is-a row registers its parent endpoint in the parent lookup. -/
theorem mem_parentsOf_of_rel {rels : List RelRow} {r : RelRow} (hr : r ∈ rels)
    (hkind : r.relationship_id = isAStr) :
    r.concept_id_2 ∈ parentsOf rels r.concept_id_1 := by
  simp only [parentsOf, List.mem_map, List.mem_filter, decide_eq_true_eq]
  exact ⟨r, ⟨hr, hkind, rfl⟩, rfl⟩

end VocabImport

namespace VocabImport

/-- C3: for every hierarchical edge set, including cyclic ones, the ancestor
and descendant traversals are total functions returning exactly the set of
concepts reachable in the respective direction (so a traversal started from a
cycle member returns exactly the reachable cycle members plus any further
ancestors or descendants, each at most once); on the concrete cycle
1 → 2 → 3 → 1 with extra ancestor 4 of 2 the traversals return precisely the
expected sets. -/
theorem claim_C3_cycle_safety :
    (∀ (rels : List RelRow) (c k : Nat),
      k ∈ get_all_ancestors rels c ↔ Reaches (parentsOf rels) c k)
    ∧ (∀ (rels : List RelRow) (c k : Nat),
      k ∈ get_all_descendants rels c ↔ Reaches (childrenOf rels) c k)
    ∧ get_all_ancestors cycleRels 1 = {1, 2, 3, 4}
    ∧ get_all_ancestors cycleRels 2 = {2, 3, 1, 4}
    ∧ get_all_ancestors cycleRels 3 = {3, 1, 2, 4}
    ∧ get_all_descendants cycleRels 1 = {1, 3, 2} :=
  ⟨mem_get_all_ancestors, mem_get_all_descendants,
    by decide, by decide, by decide, by decide⟩

/-- C2: the pre-exclusion concept-identifier set contains (i) the seed set,
(ii) both endpoints of every Is-a or Maps-to edge touching the seed set, and
(iii) everything reachable upward or downward through the is-a relation from
any concept of (i) or (ii). -/
theorem claim_C2_expansion_contract (inp : Input) :
    (∀ c ∈ conceptsWithTranslations inp, c ∈ allConceptIds inp)
    ∧ (∀ r ∈ inp.rels, (r.relationship_id = isAStr ∨ r.relationship_id = mapsToStr) →
        (r.concept_id_1 ∈ conceptsWithTranslations inp
          ∨ r.concept_id_2 ∈ conceptsWithTranslations inp) →
        r.concept_id_1 ∈ allConceptIds inp ∧ r.concept_id_2 ∈ allConceptIds inp)
    ∧ (∀ c, (c ∈ conceptsWithTranslations inp
          ∨ ∃ r ∈ inp.rels, (r.relationship_id = isAStr ∨ r.relationship_id = mapsToStr)
              ∧ (r.concept_id_1 ∈ conceptsWithTranslations inp
                 ∨ r.concept_id_2 ∈ conceptsWithTranslations inp)
              ∧ (c = r.concept_id_1 ∨ c = r.concept_id_2)) →
        ∀ p, Reaches (parentsOf inp.rels) c p ∨ Reaches (childrenOf inp.rels) c p →
          p ∈ allConceptIds inp) := by
  refine ⟨?_, ?_, ?_⟩
  · intro c hc
    exact seed_subset_allConceptIds hc
  · intro r hr hkind hseed
    have h := related_endpoints_mem hr hkind hseed
    exact ⟨starting_subset_allConceptIds h.1, starting_subset_allConceptIds h.2⟩
  · intro c hc p hp
    have hcs : c ∈ startingConcepts inp := by
      rcases hc with h | ⟨r, hr, hkind, hseed, hcr⟩
      · exact Finset.mem_union_left _ h
      · have h := related_endpoints_mem hr hkind hseed
        rcases hcr with rfl | rfl
        · exact h.1
        · exact h.2
    rcases hp with h | h
    · exact ancestor_mem_allConceptIds hcs h
    · exact descendant_mem_allConceptIds hcs h

/-- Witness for C2 on the concrete input `inpA`: concept 3 is reached from the
seed concept 1 through two downward hops. -/
theorem claim_C2_expansion_contract_witness :
    (1 ∈ conceptsWithTranslations inpA) ∧ 3 ∈ allConceptIds inpA :=
  ⟨by decide, (claim_C2_expansion_contract inpA).2.2 1 (Or.inl (by decide)) 3
    (Or.inr (Reaches.step (show (2 : Nat) ∈ childrenOf inpA.rels 1 by decide)
      (Reaches.step (show (3 : Nat) ∈ childrenOf inpA.rels 2 by decide)
        (Reaches.refl 3))))⟩

/-- C1 fails as stated: in `inpA` concept 3 is imported (reached only as a
descendant), the relationship table has the is-a edge 3 → 4, yet the parent 4
is neither imported nor removed by the domain exclusion filter. -/
theorem claim_C1_counterexample :
    3 ∈ finalConceptIds inpA ∧ 3 ∈ allConceptIdsPost inpA
    ∧ RelRow.mk 3 4 isAStr ∈ inpA.rels
    ∧ 4 ∉ excludedConceptIds inpA
    ∧ 4 ∉ finalConceptIds inpA ∧ 4 ∉ allConceptIdsPost inpA := by
  decide

/-- C1 (amended): closure completeness holds for every concept reached by the
ancestor traversal from a starting concept: each of its is-a parents in the
relationship table is in the post-exclusion identifier set unless the parent
was removed by the domain exclusion filter. -/
theorem claim_C1_closure_amended (inp : Input) (s C P : Nat)
    (hs : s ∈ startingConcepts inp)
    (hreach : Reaches (parentsOf inp.rels) s C)
    (_hC : C ∈ allConceptIdsPost inp)
    (hedge : RelRow.mk C P isAStr ∈ inp.rels) :
    P ∈ allConceptIdsPost inp ∨ P ∈ excludedConceptIds inp := by
  have hP : P ∈ parentsOf inp.rels C := mem_parentsOf_of_rel hedge rfl
  have hreach' : Reaches (parentsOf inp.rels) s P :=
    reaches_trans hreach (Reaches.step hP (Reaches.refl P))
  have hPin : P ∈ allConceptIds inp := ancestor_mem_allConceptIds hs hreach'
  by_cases hexc : P ∈ excludedConceptIds inp
  · exact Or.inr hexc
  · exact Or.inl (Finset.mem_sdiff.mpr ⟨hPin, hexc⟩)

/-- Witness for the amended C1 on `inpA`: starting concept 2 with its is-a
parent 1. -/
theorem claim_C1_closure_amended_witness :
    (2 ∈ startingConcepts inpA) ∧ (2 ∈ allConceptIdsPost inpA)
    ∧ (RelRow.mk 2 1 isAStr ∈ inpA.rels)
    ∧ (1 ∈ allConceptIdsPost inpA ∨ 1 ∈ excludedConceptIds inpA) :=
  ⟨by decide, by decide, by decide,
    claim_C1_closure_amended inpA 2 2 1 (by decide) (Reaches.refl 2)
      (by decide) (by decide)⟩

/-- C7: no maps-to edge in the final MAPS_TO edge set is self-referencing. -/
theorem claim_C7_self_map_removal (inp : Input) :
    ∀ p ∈ mapsToEdges inp, p.1 ≠ p.2 := by
  intro p hp
  obtain ⟨r, hr, rfl⟩ := List.mem_map.mp hp
  have h := of_decide_eq_true (List.mem_filter.mp hr).2
  exact h.2.2.2

/-- Witness for C7 on `inpE`: the proper maps-to edge (1, 2) is kept and has
distinct endpoints. -/
theorem claim_C7_self_map_removal_witness :
    ((1, 2) ∈ mapsToEdges inpE) ∧ (1 : Nat) ≠ 2 :=
  ⟨by decide, claim_C7_self_map_removal inpE (1, 2) (by decide)⟩

/-- C8: when no header matches the code-column predicate (ICD substring plus
vocabulary marker), or none matches the Chinese-column predicate, column
resolution fails with an error instead of guessing a column. -/
theorem claim_C8_column_resolution_fails_fast (cols : List String) (mark : String)
    (h : cols.filter (fun c => strContains icdMark c && strContains mark c) = []
      ∨ cols.filter (fun c => strContains chineseMark c && strContains mark c.toUpper)
          = []) :
    resolveColumns cols mark = Except.error "column resolution failed" := by
  rcases h with h | h
  · have hc : codeColumn cols mark = none := by rw [codeColumn, h]; rfl
    rw [resolveColumns, hc]
  · have hc : chineseColumn cols mark = none := by rw [chineseColumn, h]; rfl
    rw [resolveColumns, hc]
    cases codeColumn cols mark <;> rfl

/-- Witness for C8 on the concrete header list with no matching column. -/
theorem claim_C8_column_resolution_fails_fast_witness :
    (badCols.filter (fun c => strContains icdMark c && strContains cmMark c) = [])
    ∧ resolveColumns badCols cmMark = Except.error "column resolution failed" :=
  ⟨by decide,
    claim_C8_column_resolution_fails_fast badCols cmMark (Or.inl (by decide))⟩

/-- C6: the final name list holds each (concept id, language id, value) triple
at most once; deduplicating it again changes nothing, and deduplicating the
name list concatenated with a duplicate copy of itself has the same length as
deduplicating once. -/
theorem claim_C6_dedup_idempotence (inp : Input) (cid : Nat) :
    ((finalNames inp cid).map nameKey).Nodup
    ∧ dedupByKey nameKey ∅ (finalNames inp cid) = finalNames inp cid
    ∧ (dedupByKey nameKey ∅ (namesList inp cid ++ namesList inp cid)).length
        = (finalNames inp cid).length := by
  refine ⟨nodup_map_key_dedupByKey nameKey, dedupByKey_idem nameKey _, ?_⟩
  rw [dedupByKey_append_self]
  rfl

/-- C5: a concept removed by the domain exclusion filter contributes no name
entry and no endpoint of any final IS_A or MAPS_TO edge. -/
theorem claim_C5_exclusion_propagation (inp : Input) (cid d : Nat)
    (hd : d ∈ excludedConceptIds inp) :
    (∀ e ∈ finalNames inp cid, e.concept_id ≠ d)
    ∧ (∀ p ∈ isaEdges inp, p.1 ≠ d ∧ p.2 ≠ d)
    ∧ (∀ p ∈ mapsToEdges inp, p.1 ≠ d ∧ p.2 ≠ d) := by
  have hnf : d ∉ finalConceptIds inp := excluded_not_final hd
  refine ⟨?_, ?_, ?_⟩
  · intro e he heq
    have he0 : e ∈ dedupByKey nameKey ∅ (namesList inp cid) := he
    have hel : e ∈ namesList inp cid := mem_of_mem_dedupByKey nameKey he0
    rcases List.mem_append.mp hel with hex | hsyn
    · obtain ⟨c, hc, hid, _⟩ := mem_excelNames_elim hex
      apply hnf
      refine List.mem_toFinset.mpr ?_
      have hcd : c.concept_id = d := by rw [← hid, heq]
      exact hcd ▸ List.mem_map_of_mem _ hc
    · obtain ⟨s, hs, hpost, _, hid, _⟩ := mem_synonymNames_elim hsyn
      have hsd : s.concept_id = d := by rw [← hid, heq]
      rw [hsd] at hpost
      exact (Finset.mem_sdiff.mp hpost).2 hd
  · intro p hp
    obtain ⟨r, hr, rfl⟩ := List.mem_map.mp hp
    have h := of_decide_eq_true (List.mem_filter.mp hr).2
    exact ⟨fun h1 => hnf (h1 ▸ h.2.1), fun h2 => hnf (h2 ▸ h.2.2)⟩
  · intro p hp
    obtain ⟨r, hr, rfl⟩ := List.mem_map.mp hp
    have h := of_decide_eq_true (List.mem_filter.mp hr).2
    exact ⟨fun h1 => hnf (h1 ▸ h.2.1), fun h2 => hnf (h2 ▸ h.2.2.1)⟩

/-- Witness for C5 on `inpD`: concept 3 is excluded (Geography) and the one
surviving name entry belongs to concept 1, not 3. -/
theorem claim_C5_exclusion_propagation_witness :
    (3 ∈ excludedConceptIds inpD)
    ∧ ((⟨1, "x", 100, chineseStr⟩ : NameEntry).concept_id ≠ 3) :=
  ⟨by decide, (claim_C5_exclusion_propagation inpD 100 3 (by decide)).1
    ⟨1, "x", 100, chineseStr⟩ (by decide)⟩

end VocabImport

namespace VocabImport

/-- C4: for a final concept of one of the two code-based vocabularies whose
code has a spreadsheet Chinese name X, the final name list contains the Excel
entry with value X, every Chinese-named entry of that concept has value X (so
a distinct synonym-table Chinese name is suppressed), and every other
(concept, language) synonym combination is taken over unmodified. -/
theorem claim_C4_precedence (inp : Input) (cid : Nat) (c : ConceptRow) (X : String)
    (_hcid : chineseLangId inp.langMap = some cid)
    (hc : c ∈ finalConcepts inp)
    (hvx : (c.vocabulary_id = icd10cmStr ∧ inp.cmMap.lookup c.concept_code = some X)
         ∨ (c.vocabulary_id = icd10pcsStr ∧ inp.pcsMap.lookup c.concept_code = some X)) :
    ((⟨c.concept_id, X, cid, chineseStr⟩ : NameEntry) ∈ finalNames inp cid)
    ∧ (∀ e ∈ finalNames inp cid, e.concept_id = c.concept_id →
        e.language_name = chineseStr → e.value = X)
    ∧ (∀ s ∈ targetSynonyms inp, ∀ ln : String,
        s.concept_id ∈ allConceptIdsPost inp →
        inp.langMap.lookup s.language_concept_id = some ln →
        ¬(ln = chineseStr ∧ (vocabOf (finalConcepts inp) s.concept_id = some icd10cmStr
            ∨ vocabOf (finalConcepts inp) s.concept_id = some icd10pcsStr)) →
        ∃ e ∈ finalNames inp cid, e.concept_id = s.concept_id
          ∧ e.language_concept_id = s.language_concept_id
          ∧ e.value = s.concept_synonym_name) := by
  have hex : (⟨c.concept_id, X, cid, chineseStr⟩ : NameEntry) ∈ excelNames inp cid := by
    rcases hvx with ⟨hv, hl⟩ | ⟨hv, hl⟩
    · exact excelNames_intro_cm hc hv hl
    · exact excelNames_intro_pcs hc hv hl
  refine ⟨?_, ?_, ?_⟩
  · obtain ⟨l₁, l₂, hsplit⟩ := List.append_of_mem hex
    have hnd := nodup_excelNames_ids inp cid
    rw [hsplit, List.map_append] at hnd
    have hdisj := List.disjoint_of_nodup_append hnd
    have hfirst : ∀ f ∈ l₁,
        nameKey f ≠ nameKey ⟨c.concept_id, X, cid, chineseStr⟩ := by
      intro f hf hkeq
      have hid : f.concept_id = c.concept_id := congrArg Prod.fst hkeq
      refine hdisj (List.mem_map_of_mem _ hf) ?_
      rw [hid]
      exact List.mem_map_of_mem _ (List.mem_cons_self _ _)
    have hlist : namesList inp cid
        = l₁ ++ (⟨c.concept_id, X, cid, chineseStr⟩ : NameEntry)
            :: (l₂ ++ synonymNames inp) := by
      rw [namesList, hsplit, List.append_assoc, List.cons_append]
    show (⟨c.concept_id, X, cid, chineseStr⟩ : NameEntry)
        ∈ dedupByKey nameKey ∅ (namesList inp cid)
    rw [hlist]
    exact mem_dedupByKey_of_first nameKey l₁ _ hfirst (Finset.not_mem_empty _)
  · intro e he hid hln
    have he0 : e ∈ dedupByKey nameKey ∅ (namesList inp cid) := he
    have hel : e ∈ namesList inp cid := mem_of_mem_dedupByKey nameKey he0
    rcases List.mem_append.mp hel with hexm | hsyn
    · obtain ⟨c', hc', hid', _, _, hvx'⟩ := mem_excelNames_elim hexm
      have hcc : c' = c := eq_of_key_eq (fun x : ConceptRow => x.concept_id)
        (nodup_finalConcepts_ids inp) hc' hc
        (by show c'.concept_id = c.concept_id; rw [← hid', hid])
      subst hcc
      rcases hvx with ⟨hv1, hl1⟩ | ⟨hv1, hl1⟩ <;> rcases hvx' with ⟨hv2, hl2⟩ | ⟨hv2, hl2⟩
      · rw [hl1] at hl2
        exact (Option.some_injective _ hl2).symm
      · rw [hv1] at hv2
        exact absurd hv2 (by decide)
      · rw [hv1] at hv2
        exact absurd hv2 (by decide)
      · rw [hl1] at hl2
        exact (Option.some_injective _ hl2).symm
    · obtain ⟨s, hs, hpost, hlk, hid2, hval, hlid, hnskip⟩ := mem_synonymNames_elim hsyn
      exfalso
      apply hnskip
      refine ⟨hln, ?_⟩
      have hsc : s.concept_id = c.concept_id := by rw [← hid2, hid]
      rw [hsc, vocabOf_finalConcepts hc]
      rcases hvx with ⟨hv, _⟩ | ⟨hv, _⟩
      · exact Or.inl (by rw [hv])
      · exact Or.inr (by rw [hv])
  · intro s hs ln hpost hlk hskip
    have hmem : (⟨s.concept_id, s.concept_synonym_name, s.language_concept_id,
        ln⟩ : NameEntry) ∈ synonymNames inp := synonymNames_intro hs hpost hlk hskip
    have hmem2 : (⟨s.concept_id, s.concept_synonym_name, s.language_concept_id,
        ln⟩ : NameEntry) ∈ namesList inp cid := List.mem_append.mpr (Or.inr hmem)
    obtain ⟨y, hy, hky⟩ := exists_mem_dedupByKey nameKey hmem2 (Finset.not_mem_empty _)
    refine ⟨y, hy, ?_, ?_, ?_⟩
    · exact congrArg Prod.fst hky
    · exact congrArg (fun k => k.2.1) hky
    · exact congrArg (fun k => k.2.2) hky

/-- Witness for C4 on `inpB`: the Excel name X wins for the ICD10CM concept 10. -/
theorem claim_C4_precedence_witness :
    (chineseLangId inpB.langMap = some 100) ∧ (rowB ∈ finalConcepts inpB)
    ∧ (inpB.cmMap.lookup rowB.concept_code = some xName)
    ∧ ((⟨rowB.concept_id, xName, 100, chineseStr⟩ : NameEntry) ∈ finalNames inpB 100) :=
  ⟨by decide, by decide, by decide,
    (claim_C4_precedence inpB 100 rowB xName (by decide) (by decide)
      (Or.inl ⟨rfl, by decide⟩)).1⟩

/-- C9 (implicit): for a final concept of a code-based vocabulary whose code is
absent from the spreadsheet map, the suppression of Chinese synonym-table names
still applies, so the concept receives no Chinese name entry at all. -/
theorem claim_C9_chinese_suppression_unconditional (inp : Input) (cid : Nat)
    (c : ConceptRow) (hc : c ∈ finalConcepts inp)
    (hvx : (c.vocabulary_id = icd10cmStr ∧ inp.cmMap.lookup c.concept_code = none)
         ∨ (c.vocabulary_id = icd10pcsStr ∧ inp.pcsMap.lookup c.concept_code = none)) :
    ∀ e ∈ finalNames inp cid, e.concept_id = c.concept_id →
      e.language_name ≠ chineseStr := by
  intro e he hid hln
  have he0 : e ∈ dedupByKey nameKey ∅ (namesList inp cid) := he
  have hel : e ∈ namesList inp cid := mem_of_mem_dedupByKey nameKey he0
  rcases List.mem_append.mp hel with hexm | hsyn
  · obtain ⟨c', hc', hid', _, _, hvx'⟩ := mem_excelNames_elim hexm
    have hcc : c' = c := eq_of_key_eq (fun x : ConceptRow => x.concept_id)
      (nodup_finalConcepts_ids inp) hc' hc
      (by show c'.concept_id = c.concept_id; rw [← hid', hid])
    subst hcc
    rcases hvx with ⟨hv1, hl1⟩ | ⟨hv1, hl1⟩ <;> rcases hvx' with ⟨hv2, hl2⟩ | ⟨hv2, hl2⟩
    · rw [hl1] at hl2
      cases hl2
    · rw [hv1] at hv2
      exact absurd hv2 (by decide)
    · rw [hv1] at hv2
      exact absurd hv2 (by decide)
    · rw [hl1] at hl2
      cases hl2
  · obtain ⟨s, hs, hpost, hlk, hid2, hval, hlid, hnskip⟩ := mem_synonymNames_elim hsyn
    apply hnskip
    refine ⟨hln, ?_⟩
    have hsc : s.concept_id = c.concept_id := by rw [← hid2, hid]
    rw [hsc, vocabOf_finalConcepts hc]
    rcases hvx with ⟨hv, _⟩ | ⟨hv, _⟩
    · exact Or.inl (by rw [hv])
    · exact Or.inr (by rw [hv])

/-- Witness for C9 on `inpC`: concept 11 (ICD10CM, code missing from the
spreadsheet) keeps no Chinese name, not even its synonym-table one. -/
theorem claim_C9_chinese_suppression_unconditional_witness :
    (rowC ∈ finalConcepts inpC)
    ∧ (inpC.cmMap.lookup rowC.concept_code = none)
    ∧ ((⟨11, "Y", 100, chineseStr⟩ : NameEntry) ∉ finalNames inpC 100) := by
  refine ⟨by decide, by decide, fun hmem => ?_⟩
  exact claim_C9_chinese_suppression_unconditional inpC 100 rowC (by decide)
    (Or.inl ⟨rfl, by decide⟩) ⟨11, "Y", 100, chineseStr⟩ hmem rfl rfl

/-- C10 (implicit): name emission only checks the post-exclusion identifier
set, so on `inpF` a name for concept 1 is emitted although the concept file
holds no row for 1 and no final concept row exists for it. -/
theorem claim_C10_orphan_name_emitted :
    chineseLangId inpF.langMap = some 100
    ∧ ((⟨1, "n", 100, chineseStr⟩ : NameEntry) ∈ finalNames inpF 100)
    ∧ (1 ∈ allConceptIdsPost inpF)
    ∧ (1 ∉ finalConceptIds inpF)
    ∧ (∀ c ∈ inpF.concepts, c.concept_id ≠ 1) := by
  refine ⟨by decide, by decide, by decide, by decide, by decide⟩

end VocabImport
